import Mathlib

/-!
Verification development for the mlpack sparse-coding module
(src/mlpack/methods/sparse_coding/sparse_coding_impl.hpp).

Dense matrices are shallowly embedded as a size-annotated entry function;
real arithmetic on doubles is embedded in an arbitrary linear ordered
field, instantiated with the reals or the rationals in concrete
statements.  External collaborators of the module — the Armadillo
square-root and norm kernel, the linear solver arma::solve, the random
generator math::RandInt, and the LARS regression subsolver — are passed
in as explicit function parameters, so every definition below is
executable wherever the translated code is.
-/

namespace Mlpack

/-- Dense matrix: row and column counts plus a total entry function
(indices outside the bounds carry junk that is never relied upon). -/
@[ext]
structure Mat (α : Type) where
  rows : Nat
  cols : Nat
  entries : Nat → Nat → α

namespace Mat

variable {α : Type} [LinearOrderedField α]

/-- trans(M) of Armadillo. -/
def transpose (M : Mat α) : Mat α :=
  { rows := M.cols, cols := M.rows, entries := fun i j => M.entries j i }

/-- Matrix product A * B of Armadillo. -/
def mul (A B : Mat α) : Mat α :=
  { rows := A.rows, cols := B.cols,
    entries := fun i j => ∑ k ∈ Finset.range A.cols, A.entries i k * B.entries k j }

/-- Matrix sum A + B of Armadillo. -/
def add (A B : Mat α) : Mat α :=
  { rows := A.rows, cols := A.cols, entries := fun i j => A.entries i j + B.entries i j }

/-- Matrix difference A - B of Armadillo. -/
def sub (A B : Mat α) : Mat α :=
  { rows := A.rows, cols := A.cols, entries := fun i j => A.entries i j - B.entries i j }

/-- diagmat(v) of Armadillo for a length-n vector v. -/
def diag (n : Nat) (v : Nat → α) : Mat α :=
  { rows := n, cols := n, entries := fun i j => if i = j ∧ i < n then v i else 0 }

/-- Sum of squares of the in-bounds entries of column j
(the square of the Euclidean column norm computed by norm(col, 2)). -/
def colSumSq (M : Mat α) (j : Nat) : α :=
  ∑ i ∈ Finset.range M.rows, M.entries i j ^ 2

/-- Euclidean norm of column j, norm(M.col(j), 2) of Armadillo;
the square-root kernel is an explicit parameter. -/
def colNorm (sqrt : α → α) (M : Mat α) (j : Nat) : α :=
  sqrt (colSumSq M j)

/-- Sum of squares of all in-bounds entries
(the square of the Frobenius norm computed by norm(M, "fro")). -/
def sumSq (M : Mat α) : α :=
  ∑ j ∈ Finset.range M.cols, ∑ i ∈ Finset.range M.rows, M.entries i j ^ 2

/-- Frobenius norm, norm(M, "fro") of Armadillo. -/
def froNorm (sqrt : α → α) (M : Mat α) : α :=
  sqrt (sumSq M)

/-- sum(sum(abs(M))) of Armadillo: the entrywise l1 norm. -/
def l11Norm (M : Mat α) : α :=
  ∑ j ∈ Finset.range M.cols, ∑ i ∈ Finset.range M.rows, |M.entries i j|

end Mat

/-- Row indices kept by RemoveRows strictly after the first removed row:
for each pair of consecutive removed rows the source copies the span
between them (the loop on removeInd, lines 364-378), and after the last
removed row it copies the span down to the final row when nonempty
(lines 382-387).  List.range' with a zero length models the skipped
copies of empty spans. -/
def keptBetween (rows : Nat) : List Nat → List Nat
  | [] => []
  | [r] => List.range' (r + 1) (rows - 1 - r)
  | r1 :: r2 :: rest => List.range' (r1 + 1) (r2 - r1 - 1) ++ keptBetween rows (r2 :: rest)

/-- RemoveRows(X, rowsToRemove, modX) (sparse_coding_impl.hpp lines 334-389):
with no rows to remove, modX = X (line 345); otherwise modX has
rows - nRemove rows and the same columns, filled by copying the span before
the first removed row (lines 354-361) and then the spans between and after
the removed rows (keptBetween).  The copied blocks are modelled by the
concatenated list of copied source-row indices. -/
def RemoveRows {α : Type} (X : Mat α) (rowsToRemove : List Nat) : Mat α :=
  match rowsToRemove with
  | [] => X
  | r0 :: rest =>
    let kept := List.range r0 ++ keptBetween X.rows (r0 :: rest)
    { rows := X.rows - (r0 :: rest).length, cols := X.cols,
      entries := fun i j => X.entries (kept.getD i 0) j }

/-- Helper for reasoning about the kept rows: ascending chunks of
surviving indices starting at a, one chunk before each removed row. -/
def chunksFrom (rows : Nat) : Nat → List Nat → List Nat
  | a, [] => List.range' a (rows - a)
  | a, r :: rest => List.range' a (r - a) ++ chunksFrom rows (r + 1) rest

/-- State of a SparseCoding object: the fields of the C++ class. -/
structure SparseCoding (α : Type) where
  atoms : Nat
  data : Mat α
  codes : Mat α
  dictionary : Mat α
  lambda1 : α
  lambda2 : α

/-- Constructor SparseCoding::SparseCoding(data, atoms, lambda1, lambda2)
(sparse_coding_impl.hpp lines 21-34).  The member initializer list stores
the hyperparameters, keeps a reference to the data, and sizes the code
matrix as atoms x data.n_cols (the dense-matrix constructor of the
Armadillo release of this era zero-fills the allocated elements, matching
the constructor contract of the spec); the dictionary is produced by the pluggable
DictionaryInitializer::Initialize strategy, an external collaborator whose
output is taken as a parameter.  The constructor body performs no
validation of any argument and has no failure path. -/
def construct {α : Type} [LinearOrderedField α]
    (data : Mat α) (atoms : Nat) (lambda1 lambda2 : α)
    (dictionaryInit : Mat α) : SparseCoding α :=
  { atoms := atoms
    data := data
    codes := { rows := atoms, cols := data.cols, entries := fun _ _ => 0 }
    dictionary := dictionaryInit
    lambda1 := lambda1
    lambda2 := lambda2 }

/-- SparseCoding::ProjectDictionary (sparse_coding_impl.hpp lines 300-313):
every dictionary column with Euclidean norm strictly greater than 1 is
divided by its norm; other columns are untouched.  The loop runs over
j < atoms = number of dictionary columns. -/
def ProjectDictionary {α : Type} [LinearOrderedField α]
    (sqrt : α → α) (M : Mat α) : Mat α :=
  { M with entries := fun i j =>
      if j < M.cols ∧ 1 < Mat.colNorm sqrt M j then
        M.entries i j / Mat.colNorm sqrt M j
      else
        M.entries i j }

/-- SparseCoding::Objective (sparse_coding_impl.hpp lines 316-332):
l11NormZ = sum(sum(abs(codes))), froNormResidual = norm(data - dictionary *
codes, "fro"); when lambda2 > 0 the elastic-net form is returned, else the
simpler LASSO form. -/
def Objective {α : Type} [LinearOrderedField α]
    (sqrt : α → α) (s : SparseCoding α) : α :=
  let l11NormZ := Mat.l11Norm s.codes
  let froNormResidual := Mat.froNorm sqrt (s.data.sub (s.dictionary.mul s.codes))
  if 0 < s.lambda2 then
    (1/2) * (froNormResidual ^ 2 + s.lambda2 * (Mat.froNorm sqrt s.codes) ^ 2) +
      s.lambda1 * l11NormZ
  else
    (1/2) * froNormResidual ^ 2 + s.lambda1 * l11NormZ

/-- Neighbor-count diagnostic of SparseCoding::OptimizeDictionary
(sparse_coding_impl.hpp lines 117-138): walks the flat indices of the
nonzero code entries in column-major order, advancing the current point
(column) index by integer division by atoms, and increments the count of
the current point for every listed element after the first.  The result is
computed by the source and then never read again. -/
def neighborCounts (atoms : Nat) (adjacencies : List Nat) : Nat → Nat :=
  match adjacencies with
  | [] => fun _ => 0
  | a0 :: rest =>
    let step := fun (st : Nat × (Nat → Nat)) (al : Nat) =>
      let curPointInd := if (st.1 + 1) * atoms ≤ al then al / atoms else st.1
      (curPointInd, fun p => if p = curPointInd then st.2 p + 1 else st.2 p)
    (rest.foldl step (a0 / atoms, fun _ => 0)).2

/-- accu(codes.row(j) != 0) == 0 (sparse_coding_impl.hpp line 147): the
whole code row j is zero. -/
def codeRowIsZero {α : Type} [LinearOrderedField α] [DecidableEq α] (Z : Mat α) (j : Nat) : Bool :=
  (List.range Z.cols).all fun n => decide (Z.entries j n = 0)

/-- Inactive atoms (sparse_coding_impl.hpp lines 141-151): the atom indices
j < atoms whose code row is entirely zero, in increasing order. -/
def inactiveAtomsList {α : Type} [LinearOrderedField α] [DecidableEq α] (Z : Mat α) (atoms : Nat) : List Nat :=
  (List.range atoms).filter fun j => codeRowIsZero Z j

/-- Active atoms (sparse_coding_impl.hpp lines 141-151): the atom indices
j < atoms with some nonzero code entry, in increasing order. -/
def activeAtomsList {α : Type} [LinearOrderedField α] [DecidableEq α] (Z : Mat α) (atoms : Nat) : List Nat :=
  (List.range atoms).filter fun j => ! codeRowIsZero Z j

/-- Sum of the three drawn data columns for one inactive atom
(sparse_coding_impl.hpp lines 286-289), as a column vector. -/
def drawSum {α : Type} [LinearOrderedField α]
    (data : Mat α) (d0 d1 d2 : Nat) (i : Nat) : α :=
  data.entries i d0 + data.entries i d1 + data.entries i d2

/-- Replacement column for an inactive atom (sparse_coding_impl.hpp lines
283-293): the sum of three randomly drawn data columns, divided by its
Euclidean norm. -/
def inactiveCol {α : Type} [LinearOrderedField α]
    (sqrt : α → α) (data : Mat α) (d0 d1 d2 : Nat) (i : Nat) : α :=
  drawSum data d0 d1 d2 i /
    sqrt (∑ k ∈ Finset.range data.rows, drawSum data d0 d1 d2 k ^ 2)

/-- matActiveZ (sparse_coding_impl.hpp lines 156-167): the codes
themselves when no atom is inactive, else the row compaction of the codes
by the inactive rows. -/
def matActiveZOf {α : Type} [LinearOrderedField α] [DecidableEq α]
    (s : SparseCoding α) : Mat α :=
  if inactiveAtomsList s.codes s.atoms = [] then s.codes
  else RemoveRows s.codes (inactiveAtomsList s.codes s.atoms)

/-- The transposed dual solution
trans(solve(codesZT + diagmat(dualVars), codesXT)) with
codesXT = matActiveZ * trans(data) and codesZT = matActiveZ *
trans(matActiveZ) (sparse_coding_impl.hpp lines 201-202 and
272/276-277). -/
def dictionaryActiveEstimateOf {α : Type} [LinearOrderedField α] [DecidableEq α]
    (solve : Mat α → Mat α → Mat α) (dualVars : Nat → α)
    (s : SparseCoding α) : Mat α :=
  (solve (((matActiveZOf s).mul (matActiveZOf s).transpose).add
      (Mat.diag (activeAtomsList s.codes s.atoms).length dualVars))
    ((matActiveZOf s).mul s.data.transpose)).transpose

/-- SparseCoding::OptimizeDictionary (sparse_coding_impl.hpp lines
113-297), returning the new dictionary.  External pieces appear as
parameters: sqrt is the scalar square-root kernel, solve is arma::solve,
draws gives the outcomes of the math::RandInt calls (three per inactive
atom, indexed by the position of the atom in the inactive list), and
dualVars is the vector of dual variables produced by the unbounded inner
Newton iteration (lines 179-268), which is external to this model.  The
adjacency argument is consumed only by the neighborCounts diagnostic.
The atomReverseLookup table (lines 169-171) is likewise computed and never
used afterwards.  When no atom is inactive the dictionary is the
transposed dual solution itself (line 272); otherwise the active columns
of a zeros(n_rows, atoms) matrix are filled from the columns of the
transposed dual solution for the row-compacted codes, in the order of the
active list (lines 280-281), and each inactive column becomes the
normalized sum of three drawn data columns (lines 283-293). -/
def OptimizeDictionary {α : Type} [LinearOrderedField α] [DecidableEq α]
    (sqrt : α → α) (solve : Mat α → Mat α → Mat α)
    (draws : Nat → Fin 3 → Nat) (dualVars : Nat → α)
    (s : SparseCoding α) (adjacencies : List Nat) : Mat α :=
  let _neighborCounts := neighborCounts s.atoms adjacencies
  let inactiveAtoms := inactiveAtomsList s.codes s.atoms
  let activeAtoms := activeAtomsList s.codes s.atoms
  if inactiveAtoms = [] then
    dictionaryActiveEstimateOf solve dualVars s
  else
    { rows := s.data.rows, cols := s.atoms,
      entries := fun i j =>
        if j ∈ activeAtoms then
          (dictionaryActiveEstimateOf solve dualVars s).entries i
            (activeAtoms.indexOf j)
        else if j ∈ inactiveAtoms then
          let k := inactiveAtoms.indexOf j
          inactiveCol sqrt s.data (draws k 0) (draws k 1) (draws k 2) i
        else 0 }

/-- The functions called by SparseCoding::Encode, abstracted over the
state type: OptimizeCode (one LARS regression per signal, lines 88-110),
find(codes), OptimizeDictionary, and Objective.  Encode only observes
these through their call results, so its control flow is stated once for
any such collection. -/
structure EncodeOracle (α : Type) (σ : Type) where
  optimizeCode : σ → σ
  findAdjacencies : σ → List Nat
  optimizeDictionary : σ → List Nat → σ
  objective : σ → α

/-- OBJ_TOL (sparse_coding_impl.hpp line 18): the literal 1e-2.  The
nearest binary64 to 1/100 differs from 1/100 by about 2e-19, which no
statement below depends on. -/
def objTol {α : Type} [LinearOrderedField α] : α := 1 / 100

/-- DBL_MAX, the initial value of lastObjVal (line 39):
(2 - 2^-52) * 2^1023 = 2^1024 - 2^971. -/
def dblMax {α : Type} [LinearOrderedField α] : α := ((2 ^ 1024 - 2 ^ 971 : Nat) : α)

/-- Modulus of the size_t loop counter. -/
def W64 : Nat := 2 ^ 64

/-- The main loop of SparseCoding::Encode (sparse_coding_impl.hpp lines
52-85).  t is the exact count of guard checks so far plus one; the stored
size_t value is t % 2^64, and the guard t != maxIterations compares stored
values.  Each pass optimizes the dictionary with the current adjacency
set, runs the coding step, recomputes the adjacencies from the codes,
computes the objective, and breaks when lastObjVal - curObjVal < OBJ_TOL;
otherwise the objective becomes the new baseline.  fuel bounds the
recursion depth only; every theorem below supplies enough fuel for the
loop to reach its genuine exit.  Returns the final state and the number
of loop passes executed. -/
def encodeLoop {α : Type} [LinearOrderedField α] {σ : Type}
    (O : EncodeOracle α σ) (maxIterations : Nat) :
    Nat → Nat → α → σ → List Nat → σ × Nat
  | 0, _, _, state, _ => (state, 0)
  | fuel + 1, t, lastObjVal, state, adjacencies =>
    if t % W64 = maxIterations % W64 then (state, 0)
    else
      let s1 := O.optimizeDictionary state adjacencies
      let s2 := O.optimizeCode s1
      let adjacencies2 := O.findAdjacencies s2
      let curObjVal := O.objective s2
      let improvement := lastObjVal - curObjVal
      if improvement < objTol then (s2, 1)
      else
        let r := encodeLoop O maxIterations fuel (t + 1) curObjVal s2 adjacencies2
        (r.1, r.2 + 1)

/-- SparseCoding::Encode(maxIterations) (sparse_coding_impl.hpp lines
37-86): lastObjVal starts at DBL_MAX, one initial coding step runs and
the adjacency set is computed from the codes (lines 45-46), then the main
loop starts with t = 1.  Returns the final state and the number of loop
passes executed. -/
def Encode {α : Type} [LinearOrderedField α] {σ : Type}
    (O : EncodeOracle α σ) (maxIterations : Nat) (fuel : Nat) (s : σ) : σ × Nat :=
  let s0 := O.optimizeCode s
  let adjacencies := O.findAdjacencies s0
  encodeLoop O maxIterations fuel 1 dblMax s0 adjacencies

/-- One full pass of the Encode loop body acting on (state, adjacencies):
dictionary step with the current adjacencies, coding step, adjacency
recomputation. -/
def roundStep {α : Type} [LinearOrderedField α] {σ : Type}
    (O : EncodeOracle α σ) (p : σ × List Nat) : σ × List Nat :=
  let s1 := O.optimizeDictionary p.1 p.2
  let s2 := O.optimizeCode s1
  (s2, O.findAdjacencies s2)

/-- State and adjacency set after the initial coding step (n = 0) and
after each subsequent loop pass (n ≥ 1), starting Encode from s. -/
def encTraj {α : Type} [LinearOrderedField α] {σ : Type}
    (O : EncodeOracle α σ) (s : σ) : Nat → σ × List Nat
  | 0 => let s0 := O.optimizeCode s; (s0, O.findAdjacencies s0)
  | n + 1 => roundStep O (encTraj O s n)

/-- Objective baseline sequence of the Encode loop: the DBL_MAX start for
n = 0 and the objective value computed at the end of pass n for n ≥ 1. -/
def encObj {α : Type} [LinearOrderedField α] {σ : Type}
    (O : EncodeOracle α σ) (s : σ) : Nat → α
  | 0 => dblMax
  | n + 1 => O.objective (encTraj O s (n + 1)).1

/-- Improvement tested at the end of pass n (n ≥ 1):
previous objective minus the objective after the pass. -/
def encImp {α : Type} [LinearOrderedField α] {σ : Type}
    (O : EncodeOracle α σ) (s : σ) (n : Nat) : α :=
  encObj O s (n - 1) - encObj O s n

/-- Concrete 2x3 rational data matrix for concrete statements. -/
def demoData : Mat ℚ :=
  { rows := 2, cols := 3, entries := fun i j => (i : ℚ) + j }

/-- Concrete 2x2 initializer output for concrete statements. -/
def demoDict : Mat ℚ :=
  { rows := 2, cols := 2, entries := fun _ _ => 1 }

/-- Concrete 5x2 natural matrix for the RemoveRows witness. -/
def demoX5 : Mat Nat :=
  { rows := 5, cols := 2, entries := fun i j => 10 * i + j }

/-- Concrete 1x1 real dictionary whose single column has norm 3. -/
def demoDictR : Mat ℝ :=
  { rows := 1, cols := 1, entries := fun _ _ => 3 }

/-- All-zero 1x1 real matrix. -/
def zeroMat1R : Mat ℝ :=
  { rows := 1, cols := 1, entries := fun _ _ => 0 }

/-- Constant-2 1x1 real matrix. -/
def twoMat1R : Mat ℝ :=
  { rows := 1, cols := 1, entries := fun _ _ => 2 }

/-- All-ones 1x1 real sparse-coding state with lambda2 = 1. -/
def demoStateR : SparseCoding ℝ :=
  { atoms := 1
    data := { rows := 1, cols := 1, entries := fun _ _ => 1 }
    codes := { rows := 1, cols := 1, entries := fun _ _ => 1 }
    dictionary := { rows := 1, cols := 1, entries := fun _ _ => 1 }
    lambda1 := 1, lambda2 := 1 }

/-- Degenerate real state: all-zero 1x1 data and codes, so the single atom
is inactive and every drawn data column is the zero vector. -/
def zeroStateR : SparseCoding ℝ :=
  { atoms := 1, data := zeroMat1R, codes := zeroMat1R,
    dictionary := zeroMat1R, lambda1 := 1, lambda2 := 1 }

/-- Real state with nonzero 1x1 data and an all-zero code row: the single
atom is inactive and the drawn data columns sum to 6. -/
def posStateR : SparseCoding ℝ :=
  { atoms := 1, data := twoMat1R, codes := zeroMat1R,
    dictionary := twoMat1R, lambda1 := 1, lambda2 := 1 }

/-- Trivial stand-in for arma::solve in concrete statements. -/
def solveZero : Mat ℝ → Mat ℝ → Mat ℝ := fun _ _ => zeroMat1R

/-- Random draws that always pick data column 0. -/
def drawsZero : Nat → Fin 3 → Nat := fun _ _ => 0

/-- Zero dual variables. -/
def dualZero : Nat → ℝ := fun _ => 0

/-- Oracle whose steps keep the state and whose objective is the state:
after the initial coding step the objective is constant, so the second
loop pass sees zero improvement and exits by tolerance. -/
def oracleConst : EncodeOracle ℚ ℚ :=
  { optimizeCode := fun s => s
    findAdjacencies := fun _ => []
    optimizeDictionary := fun s _ => s
    objective := fun s => s }

/-- Oracle whose coding step lowers the state by 1 and whose objective is
the state: every loop pass improves the objective by exactly 1, so the
tolerance exit never fires. -/
def oracleDec : EncodeOracle ℚ ℚ :=
  { optimizeCode := fun s => s - 1
    findAdjacencies := fun _ => []
    optimizeDictionary := fun s _ => s
    objective := fun s => s }

/-- Oracle whose coding step raises the state by 1 and whose objective is
the state: from the second loop pass on, the objective strictly increases
(negative improvement). -/
def oracleInc : EncodeOracle ℚ ℚ :=
  { optimizeCode := fun s => s + 1
    findAdjacencies := fun _ => []
    optimizeDictionary := fun s _ => s
    objective := fun s => s }

/-- C1 counterexample: constructing with 3 atoms on 2-dimensional data and
negative lambda1 and lambda2 — every configuration fault named by the
claim at once — does not fail: it yields a fully formed object recording
exactly these values (the constructor, lines 21-34 of
sparse_coding_impl.hpp, contains no validation and has no failure path). -/
theorem construct_invalid_yields_object :
    (construct demoData 3 (-1 : ℚ) (-1) demoDict).atoms = 3 ∧
    (construct demoData 3 (-1 : ℚ) (-1) demoDict).codes.rows = 3 ∧
    (construct demoData 3 (-1 : ℚ) (-1) demoDict).codes.cols = 3 ∧
    (construct demoData 3 (-1 : ℚ) (-1) demoDict).lambda1 = -1 ∧
    (construct demoData 3 (-1 : ℚ) (-1) demoDict).lambda2 = -1 :=
  ⟨rfl, rfl, rfl, rfl, rfl⟩

/-- C1 (amended): construction never rejects a configuration.  Even when
the atom count is zero, a lambda is non-positive, or more atoms are
requested than the data dimensionality, the constructor yields an object
holding the given hyperparameters, an atoms x n_cols zero code matrix,
and the initializer output as dictionary. -/
theorem construct_no_validation {α : Type} [LinearOrderedField α]
    (data : Mat α) (atoms : Nat) (lambda1 lambda2 : α) (dictionaryInit : Mat α)
    (_hInvalid : atoms = 0 ∨ lambda1 ≤ 0 ∨ lambda2 ≤ 0 ∨ data.rows < atoms) :
    construct data atoms lambda1 lambda2 dictionaryInit =
      { atoms := atoms, data := data,
        codes := { rows := atoms, cols := data.cols, entries := fun _ _ => 0 },
        dictionary := dictionaryInit, lambda1 := lambda1, lambda2 := lambda2 } :=
  rfl

/-- Witness for construct_no_validation at a concrete invalid
configuration. -/
theorem construct_no_validation_witness :
    construct demoData 3 (-1 : ℚ) (-1) demoDict =
      { atoms := 3, data := demoData,
        codes := { rows := 3, cols := demoData.cols, entries := fun _ _ => 0 },
        dictionary := demoDict, lambda1 := -1, lambda2 := -1 } :=
  construct_no_validation demoData 3 (-1 : ℚ) (-1) demoDict
    (Or.inr (Or.inl (by norm_num)))

/-- C2: immediately after construction the code matrix has shape
atoms x n_cols with every entry exactly zero, and the dictionary — the
output of the initializer strategy, which by its contract produces a
data.rows x atoms matrix — has one row per data feature and atoms
columns. -/
theorem construct_shapes_and_zero_codes {α : Type} [LinearOrderedField α]
    (data : Mat α) (atoms : Nat) (lambda1 lambda2 : α) (dictionaryInit : Mat α)
    (hInit : dictionaryInit.rows = data.rows ∧ dictionaryInit.cols = atoms) :
    (construct data atoms lambda1 lambda2 dictionaryInit).codes.rows = atoms ∧
    (construct data atoms lambda1 lambda2 dictionaryInit).codes.cols = data.cols ∧
    (∀ i j : Nat,
      (construct data atoms lambda1 lambda2 dictionaryInit).codes.entries i j = 0) ∧
    (construct data atoms lambda1 lambda2 dictionaryInit).dictionary.rows = data.rows ∧
    (construct data atoms lambda1 lambda2 dictionaryInit).dictionary.cols = atoms :=
  ⟨rfl, rfl, fun _ _ => rfl, hInit.1, hInit.2⟩

/-- Witness for construct_shapes_and_zero_codes on a concrete 2x3 data
matrix with 2 atoms. -/
theorem construct_shapes_and_zero_codes_witness :
    (construct demoData 2 (1/10 : ℚ) 0 demoDict).codes.rows = 2 ∧
    (construct demoData 2 (1/10 : ℚ) 0 demoDict).codes.entries 1 2 = 0 ∧
    (construct demoData 2 (1/10 : ℚ) 0 demoDict).dictionary.cols = 2 := by
  have h := construct_shapes_and_zero_codes demoData 2 (1/10 : ℚ) 0 demoDict ⟨rfl, rfl⟩
  exact ⟨h.1, h.2.2.1 1 2, h.2.2.2.2⟩

/-- The getD read of List.range below its length. -/
theorem range_getD (n i : Nat) (h : i < n) : (List.range n).getD i 0 = i := by
  rw [List.getD_eq_getElem?_getD, List.getElem?_range h]
  rfl

/-- The block copies after the first removed row agree with the chunk
decomposition that starts just past that row. -/
theorem keptBetween_eq_chunksFrom (rows r : Nat) (rest : List Nat) :
    keptBetween rows (r :: rest) = chunksFrom rows (r + 1) rest := by
  induction rest generalizing r with
  | nil =>
    show List.range' (r + 1) (rows - 1 - r) = List.range' (r + 1) (rows - (r + 1))
    congr 1
    omega
  | cons r2 rest ih =>
    show List.range' (r + 1) (r2 - r - 1) ++ keptBetween rows (r2 :: rest) =
      List.range' (r + 1) (r2 - (r + 1)) ++ chunksFrom rows (r2 + 1) rest
    rw [ih]
    congr 2

/-- For a strictly ascending in-bounds removal list, the chunk
decomposition from a is exactly the ascending list of surviving indices in
[a, rows). -/
theorem chunksFrom_eq_filter (rows : Nat) (rs : List Nat) :
    ∀ a : Nat, List.Sorted (· < ·) rs → (∀ r ∈ rs, a ≤ r ∧ r < rows) →
    chunksFrom rows a rs =
      (List.range' a (rows - a)).filter (fun x => decide (x ∉ rs)) := by
  induction rs with
  | nil =>
    intro a _ _
    show List.range' a (rows - a) = _
    rw [eq_comm, List.filter_eq_self]
    simp
  | cons r rest ih =>
    intro a hsort hb
    have har : a ≤ r := (hb r (by simp)).1
    have hrrows : r < rows := (hb r (by simp)).2
    have hrest_gt : ∀ x ∈ rest, r < x := List.rel_of_sorted_cons hsort
    have hsplit : List.range' a (rows - a) =
        List.range' a (r - a) ++ r :: List.range' (r + 1) (rows - (r + 1)) := by
      have h2 : List.range' r (rows - r) =
          r :: List.range' (r + 1) (rows - (r + 1)) := by
        rw [show rows - r = (rows - (r + 1)) + 1 by omega, List.range'_succ]
      calc List.range' a (rows - a)
          = List.range' a ((rows - r) + (r - a)) := by congr 1; omega
        _ = List.range' a (r - a) ++ List.range' (a + (r - a)) (rows - r) :=
            (List.range'_append_1 a (r - a) (rows - r)).symm
        _ = List.range' a (r - a) ++ r :: List.range' (r + 1) (rows - (r + 1)) := by
            rw [show a + (r - a) = r by omega, h2]
    have hfirst : (List.range' a (r - a)).filter (fun x => decide (x ∉ r :: rest)) =
        List.range' a (r - a) := by
      rw [List.filter_eq_self]
      intro x hx
      have hxr : a ≤ x ∧ x < a + (r - a) := List.mem_range'_1.mp hx
      simp only [List.mem_cons, decide_eq_true_eq]
      intro hmem
      rcases hmem with h | h
      · omega
      · exact absurd (hrest_gt x h) (by omega)
    have hrestfilter :
        (List.range' (r + 1) (rows - (r + 1))).filter
          (fun x => decide (x ∉ r :: rest)) =
        (List.range' (r + 1) (rows - (r + 1))).filter
          (fun x => decide (x ∉ rest)) := by
      apply List.filter_congr
      intro x hx
      have hxgt : r + 1 ≤ x ∧ x < r + 1 + (rows - (r + 1)) := List.mem_range'_1.mp hx
      simp only [decide_eq_decide, List.mem_cons]
      constructor
      · intro h hmem
        exact h (Or.inr hmem)
      · intro h hmem
        rcases hmem with h1 | h1
        · omega
        · exact h h1
    have hrec := ih (r + 1) (List.Sorted.of_cons hsort)
      (fun x hx => ⟨by have := hrest_gt x hx; omega, (hb x (by simp [hx])).2⟩)
    show List.range' a (r - a) ++ chunksFrom rows (r + 1) rest = _
    rw [hsplit, List.filter_append, hfirst, List.filter_cons,
      if_neg (by simp), hrestfilter, hrec]

/-- C5: for a strictly ascending, in-bounds list of m row indices,
RemoveRows produces a matrix with rows - m rows and the same columns whose
i-th row is the i-th row of X whose index is not in the list, in the
original order; with an empty list the output equals X. -/
theorem RemoveRows_spec {α : Type} (X : Mat α) (rs : List Nat)
    (hsort : List.Sorted (· < ·) rs) (hb : ∀ r ∈ rs, r < X.rows) :
    (RemoveRows X rs).rows = X.rows - rs.length ∧
    (RemoveRows X rs).cols = X.cols ∧
    (∀ (i : Fin (X.rows - rs.length)) (j : Nat),
      (RemoveRows X rs).entries i j =
        X.entries
          (((List.range X.rows).filter (fun x => decide (x ∉ rs))).getD i 0) j) ∧
    (rs = [] → RemoveRows X rs = X) := by
  match rs, hsort, hb with
  | [], _, _ =>
    refine ⟨rfl, rfl, ?_, fun _ => rfl⟩
    intro i j
    have hfull : (List.range X.rows).filter (fun x => decide (x ∉ ([] : List Nat))) =
        List.range X.rows := by
      rw [List.filter_eq_self]
      simp
    show X.entries i j = _
    rw [hfull, range_getD X.rows i (by omega)]
  | r0 :: rest, hsort, hb =>
    have hkept : List.range r0 ++ keptBetween X.rows (r0 :: rest) =
        (List.range X.rows).filter (fun x => decide (x ∉ r0 :: rest)) := by
      rw [keptBetween_eq_chunksFrom, List.range_eq_range']
      have h := chunksFrom_eq_filter X.rows (r0 :: rest) 0 hsort
        (fun r hr => ⟨Nat.zero_le r, hb r hr⟩)
      calc List.range' 0 r0 ++ chunksFrom X.rows (r0 + 1) rest
          = chunksFrom X.rows 0 (r0 :: rest) := rfl
        _ = _ := by rw [h, List.range_eq_range', Nat.sub_zero]
    exact ⟨rfl, rfl, fun i j => by
      show X.entries
        ((List.range r0 ++ keptBetween X.rows (r0 :: rest)).getD i 0) j = _
      rw [hkept], fun hcontra => nomatch hcontra⟩

/-- Witness for RemoveRows_spec: removing row 2 of a 5x2 matrix leaves 4
rows, and output row 2 is input row 3. -/
theorem RemoveRows_spec_witness :
    (RemoveRows demoX5 [2]).rows = 4 ∧
    (RemoveRows demoX5 [2]).cols = 2 ∧
    (RemoveRows demoX5 [2]).entries 2 1 = 31 := by
  have h := RemoveRows_spec demoX5 [2] (by simp) (by decide)
  exact ⟨h.1, h.2.1, (h.2.2.1 ⟨2, by decide⟩ 1).trans (by decide)⟩

/-- A square-root kernel obeying the two contract facts sends 1 to 1. -/
theorem sqrt_spec_one {α : Type} [LinearOrderedField α] (sqrt : α → α)
    (hsq : ∀ x : α, 0 ≤ x → sqrt x * sqrt x = x)
    (hnn : ∀ x : α, 0 ≤ x → 0 ≤ sqrt x) : sqrt 1 = 1 := by
  rcases mul_self_eq_one_iff.mp (hsq 1 zero_le_one) with h | h
  · exact h
  · have := hnn 1 zero_le_one
    rw [h] at this
    linarith

/-- Column sums of squares are nonnegative. -/
theorem colSumSq_nonneg {α : Type} [LinearOrderedField α] (M : Mat α) (j : Nat) :
    0 ≤ Mat.colSumSq M j :=
  Finset.sum_nonneg fun _ _ => sq_nonneg _

/-- C6: ProjectDictionary rescales to exactly unit norm every column whose
Euclidean norm exceeds 1 and leaves every other column unchanged; after
one application every column norm is at most 1, and a second application
changes nothing.  sqrt is any square-root kernel obeying the contract of
the external math library. -/
theorem ProjectDictionary_spec {α : Type} [LinearOrderedField α]
    (sqrt : α → α)
    (hsq : ∀ x : α, 0 ≤ x → sqrt x * sqrt x = x)
    (hnn : ∀ x : α, 0 ≤ x → 0 ≤ sqrt x)
    (M : Mat α) :
    (∀ j : Fin M.cols, 1 < Mat.colNorm sqrt M j →
      (∀ i : Nat, (ProjectDictionary sqrt M).entries i j =
        M.entries i j / Mat.colNorm sqrt M j) ∧
      Mat.colNorm sqrt (ProjectDictionary sqrt M) j = 1) ∧
    (∀ j : Fin M.cols, ¬ 1 < Mat.colNorm sqrt M j →
      (∀ i : Nat, (ProjectDictionary sqrt M).entries i j = M.entries i j) ∧
      Mat.colNorm sqrt (ProjectDictionary sqrt M) j = Mat.colNorm sqrt M j) ∧
    (∀ j : Fin M.cols, Mat.colNorm sqrt (ProjectDictionary sqrt M) j ≤ 1) ∧
    ProjectDictionary sqrt (ProjectDictionary sqrt M) = ProjectDictionary sqrt M := by
  have hrows : (ProjectDictionary sqrt M).rows = M.rows := rfl
  have hgrow : ∀ j : Nat, j < M.cols → 1 < Mat.colNorm sqrt M j →
      (∀ i : Nat, (ProjectDictionary sqrt M).entries i j =
        M.entries i j / Mat.colNorm sqrt M j) ∧
      Mat.colNorm sqrt (ProjectDictionary sqrt M) j = 1 := by
    intro j hj h1
    have hent : ∀ i : Nat, (ProjectDictionary sqrt M).entries i j =
        M.entries i j / Mat.colNorm sqrt M j := by
      intro i
      show (if j < M.cols ∧ 1 < Mat.colNorm sqrt M j then _ else _) = _
      rw [if_pos ⟨hj, h1⟩]
    refine ⟨hent, ?_⟩
    have hS : 0 ≤ Mat.colSumSq M j := colSumSq_nonneg M j
    have hc : Mat.colNorm sqrt M j * Mat.colNorm sqrt M j = Mat.colSumSq M j :=
      hsq _ hS
    have hcpos : 0 < Mat.colNorm sqrt M j := lt_trans zero_lt_one h1
    have hSpos : 0 < Mat.colSumSq M j := by
      rw [← hc]
      exact mul_pos hcpos hcpos
    have hsumsq : Mat.colSumSq (ProjectDictionary sqrt M) j = 1 := by
      unfold Mat.colSumSq
      rw [hrows]
      calc ∑ i ∈ Finset.range M.rows, (ProjectDictionary sqrt M).entries i j ^ 2
          = ∑ i ∈ Finset.range M.rows,
              M.entries i j ^ 2 / Mat.colNorm sqrt M j ^ 2 := by
            refine Finset.sum_congr rfl fun i _ => ?_
            rw [hent i, div_pow]
        _ = Mat.colSumSq M j / Mat.colNorm sqrt M j ^ 2 := by
            rw [← Finset.sum_div]
            rfl
        _ = 1 := by
            rw [sq, hc]
            exact div_self (ne_of_gt hSpos)
    show sqrt (Mat.colSumSq (ProjectDictionary sqrt M) j) = 1
    rw [hsumsq]
    exact sqrt_spec_one sqrt hsq hnn
  have hkeep : ∀ j : Nat, ¬ (j < M.cols ∧ 1 < Mat.colNorm sqrt M j) →
      (∀ i : Nat, (ProjectDictionary sqrt M).entries i j = M.entries i j) ∧
      Mat.colNorm sqrt (ProjectDictionary sqrt M) j = Mat.colNorm sqrt M j := by
    intro j hcond
    have hent : ∀ i : Nat, (ProjectDictionary sqrt M).entries i j = M.entries i j := by
      intro i
      show (if j < M.cols ∧ 1 < Mat.colNorm sqrt M j then _ else _) = _
      rw [if_neg hcond]
    refine ⟨hent, ?_⟩
    show sqrt (Mat.colSumSq (ProjectDictionary sqrt M) j) = _
    have : Mat.colSumSq (ProjectDictionary sqrt M) j = Mat.colSumSq M j := by
      unfold Mat.colSumSq
      rw [hrows]
      exact Finset.sum_congr rfl fun i _ => by rw [hent i]
    rw [this]
    rfl
  refine ⟨fun j h1 => hgrow j j.isLt h1,
    fun j h1 => hkeep j (fun hcond => h1 hcond.2), ?_, ?_⟩
  · intro j
    by_cases h1 : 1 < Mat.colNorm sqrt M j
    · exact le_of_eq (hgrow j j.isLt h1).2
    · rw [(hkeep j (fun hcond => h1 hcond.2)).2]
      exact le_of_not_lt h1
  · refine Mat.ext rfl rfl ?_
    funext i j
    by_cases hj : j < M.cols
    · by_cases h1 : 1 < Mat.colNorm sqrt M j
      · show (if j < (ProjectDictionary sqrt M).cols ∧
            1 < Mat.colNorm sqrt (ProjectDictionary sqrt M) j then _ else _) = _
        rw [if_neg]
        intro hcond
        rw [(hgrow j hj h1).2] at hcond
        exact lt_irrefl 1 hcond.2
      · show (if j < (ProjectDictionary sqrt M).cols ∧
            1 < Mat.colNorm sqrt (ProjectDictionary sqrt M) j then _ else _) = _
        rw [if_neg]
        intro hcond
        rw [(hkeep j (fun hc => h1 hc.2)).2] at hcond
        exact h1 hcond.2
    · show (if j < (ProjectDictionary sqrt M).cols ∧
          1 < Mat.colNorm sqrt (ProjectDictionary sqrt M) j then _ else _) = _
      rw [if_neg]
      intro hcond
      exact hj hcond.1

/-- Witness for ProjectDictionary_spec: idempotence on a concrete real 1x1
dictionary whose single column has norm 3. -/
theorem ProjectDictionary_spec_witness :
    ProjectDictionary Real.sqrt (ProjectDictionary Real.sqrt demoDictR) =
      ProjectDictionary Real.sqrt demoDictR :=
  (ProjectDictionary_spec Real.sqrt (fun _ hx => Real.mul_self_sqrt hx)
    (fun x _ => Real.sqrt_nonneg x) demoDictR).2.2.2

/-- Total sums of squares are nonnegative. -/
theorem sumSq_nonneg {α : Type} [LinearOrderedField α] (M : Mat α) :
    0 ≤ Mat.sumSq M :=
  Finset.sum_nonneg fun _ _ => Finset.sum_nonneg fun _ _ => sq_nonneg _

/-- The square of the Frobenius norm is the sum of squared entries, for
any square-root kernel obeying the library contract. -/
theorem froNorm_sq {α : Type} [LinearOrderedField α] (sqrt : α → α)
    (hsq : ∀ x : α, 0 ≤ x → sqrt x * sqrt x = x) (M : Mat α) :
    Mat.froNorm sqrt M ^ 2 = Mat.sumSq M := by
  rw [sq]
  exact hsq _ (sumSq_nonneg M)

/-- C7: with lambda2 = 0 the objective is half the squared Frobenius
residual plus lambda1 times the entrywise l1 norm of the codes; with
lambda2 > 0 it additionally adds half lambda2 times the squared Frobenius
norm of the codes, and the two cases differ by exactly that term.  The
embedding is a pure function of the state. -/
theorem Objective_formula {α : Type} [LinearOrderedField α]
    (sqrt : α → α)
    (hsq : ∀ x : α, 0 ≤ x → sqrt x * sqrt x = x)
    (s : SparseCoding α) :
    (s.lambda2 = 0 →
      Objective sqrt s =
        (1/2) * Mat.sumSq (s.data.sub (s.dictionary.mul s.codes)) +
          s.lambda1 * Mat.l11Norm s.codes) ∧
    (0 < s.lambda2 →
      Objective sqrt s =
        (1/2) * Mat.sumSq (s.data.sub (s.dictionary.mul s.codes)) +
          (1/2) * s.lambda2 * Mat.sumSq s.codes +
          s.lambda1 * Mat.l11Norm s.codes) ∧
    (0 < s.lambda2 →
      Objective sqrt s =
        Objective sqrt { s with lambda2 := 0 } +
          (1/2) * s.lambda2 * Mat.sumSq s.codes) := by
  have hres := froNorm_sq sqrt hsq (s.data.sub (s.dictionary.mul s.codes))
  have hcodes := froNorm_sq sqrt hsq s.codes
  have hbase : Objective sqrt { s with lambda2 := 0 } =
      (1/2) * Mat.sumSq (s.data.sub (s.dictionary.mul s.codes)) +
        s.lambda1 * Mat.l11Norm s.codes := by
    show (if (0:α) < 0 then _ else _) = _
    rw [if_neg (lt_irrefl (0:α))]
    show (1/2) * Mat.froNorm sqrt (s.data.sub (s.dictionary.mul s.codes)) ^ 2 +
      s.lambda1 * Mat.l11Norm s.codes = _
    rw [hres]
  refine ⟨?_, ?_, ?_⟩
  · intro h0
    show (if 0 < s.lambda2 then _ else _) = _
    rw [h0, if_neg (lt_irrefl (0:α))]
    show (1/2) * Mat.froNorm sqrt (s.data.sub (s.dictionary.mul s.codes)) ^ 2 +
      s.lambda1 * Mat.l11Norm s.codes = _
    rw [hres]
  · intro hp
    show (if 0 < s.lambda2 then _ else _) = _
    rw [if_pos hp]
    show (1/2) * (Mat.froNorm sqrt (s.data.sub (s.dictionary.mul s.codes)) ^ 2 +
        s.lambda2 * Mat.froNorm sqrt s.codes ^ 2) +
      s.lambda1 * Mat.l11Norm s.codes = _
    rw [hres, hcodes]
    ring
  · intro hp
    rw [hbase]
    show (if 0 < s.lambda2 then _ else _) = _
    rw [if_pos hp]
    show (1/2) * (Mat.froNorm sqrt (s.data.sub (s.dictionary.mul s.codes)) ^ 2 +
        s.lambda2 * Mat.froNorm sqrt s.codes ^ 2) +
      s.lambda1 * Mat.l11Norm s.codes = _
    rw [hres, hcodes]
    ring

/-- Witness for Objective_formula on a concrete all-ones real state with
lambda2 = 1: the elastic-net objective exceeds the lambda2 = 0 objective
by exactly half the squared code norm. -/
theorem Objective_formula_witness :
    Objective Real.sqrt demoStateR =
      Objective Real.sqrt { demoStateR with lambda2 := 0 } +
        (1/2) * demoStateR.lambda2 * Mat.sumSq demoStateR.codes :=
  (Objective_formula Real.sqrt (fun _ hx => Real.mul_self_sqrt hx)
    demoStateR).2.2 (by norm_num [demoStateR])

/-- Membership in the inactive list means: a valid atom index whose whole
code row is zero. -/
theorem mem_inactiveAtomsList_iff {α : Type} [LinearOrderedField α] [DecidableEq α]
    (Z : Mat α) (atoms j : Nat) :
    j ∈ inactiveAtomsList Z atoms ↔
      j < atoms ∧ ∀ n, n < Z.cols → Z.entries j n = 0 := by
  unfold inactiveAtomsList codeRowIsZero
  rw [List.mem_filter, List.mem_range, List.all_eq_true]
  constructor
  · rintro ⟨h1, h2⟩
    exact ⟨h1, fun n hn => of_decide_eq_true (h2 n (List.mem_range.mpr hn))⟩
  · rintro ⟨h1, h2⟩
    exact ⟨h1, fun n hn => decide_eq_true (h2 n (List.mem_range.mp hn))⟩

/-- Membership in the active list means: a valid atom index with some
nonzero code entry. -/
theorem mem_activeAtomsList_iff {α : Type} [LinearOrderedField α] [DecidableEq α]
    (Z : Mat α) (atoms j : Nat) :
    j ∈ activeAtomsList Z atoms ↔
      j < atoms ∧ ∃ n, n < Z.cols ∧ Z.entries j n ≠ 0 := by
  unfold activeAtomsList codeRowIsZero
  rw [List.mem_filter, List.mem_range, Bool.not_eq_eq_eq_not, Bool.not_true]
  constructor
  · rintro ⟨h1, h2⟩
    refine ⟨h1, ?_⟩
    by_contra hcon
    push_neg at hcon
    have hall : (List.range Z.cols).all (fun n => decide (Z.entries j n = 0)) = true := by
      rw [List.all_eq_true]
      intro n hn
      exact decide_eq_true (hcon n (List.mem_range.mp hn))
    rw [hall] at h2
    cases h2
  · rintro ⟨h1, ⟨n, hn, hnz⟩⟩
    refine ⟨h1, ?_⟩
    rw [← Bool.not_eq_true]
    intro hall
    rw [List.all_eq_true] at hall
    exact hnz (of_decide_eq_true (hall n (List.mem_range.mpr hn)))

/-- C9: the dictionary produced by OptimizeDictionary does not depend on
the adjacency argument — the neighbor counts derived from it are a pure
diagnostic — and the active/inactive partition comes from the code matrix
alone: an atom is inactive exactly when its code row is all zero. -/
theorem OptimizeDictionary_adjacency_independent {α : Type} [LinearOrderedField α]
    [DecidableEq α]
    (sqrt : α → α) (solve : Mat α → Mat α → Mat α)
    (draws : Nat → Fin 3 → Nat) (dualVars : Nat → α)
    (s : SparseCoding α) (adjacencies1 adjacencies2 : List Nat) :
    OptimizeDictionary sqrt solve draws dualVars s adjacencies1 =
      OptimizeDictionary sqrt solve draws dualVars s adjacencies2 ∧
    (∀ j : Fin s.atoms,
      (j : Nat) ∈ inactiveAtomsList s.codes s.atoms ↔
        ∀ n : Fin s.codes.cols, s.codes.entries j n = 0) := by
  refine ⟨rfl, fun j => ?_⟩
  rw [mem_inactiveAtomsList_iff]
  constructor
  · rintro ⟨-, h⟩ n
    exact h n n.isLt
  · intro h
    exact ⟨j.isLt, fun n hn => h ⟨n, hn⟩⟩

/-- The entries of the OptimizeDictionary result in an inactive column:
the normalized sum of the three drawn data columns for that atom. -/
theorem OptimizeDictionary_inactive_entries {α : Type} [LinearOrderedField α]
    [DecidableEq α]
    (sqrt : α → α) (solve : Mat α → Mat α → Mat α)
    (draws : Nat → Fin 3 → Nat) (dualVars : Nat → α)
    (s : SparseCoding α) (adjacencies : List Nat) (j : Nat)
    (hj : j < s.atoms)
    (hz : ∀ n, n < s.codes.cols → s.codes.entries j n = 0) :
    (OptimizeDictionary sqrt solve draws dualVars s adjacencies).rows = s.data.rows ∧
    ∀ i : Nat,
      (OptimizeDictionary sqrt solve draws dualVars s adjacencies).entries i j =
        inactiveCol sqrt s.data
          (draws ((inactiveAtomsList s.codes s.atoms).indexOf j) 0)
          (draws ((inactiveAtomsList s.codes s.atoms).indexOf j) 1)
          (draws ((inactiveAtomsList s.codes s.atoms).indexOf j) 2) i := by
  have hmemI : j ∈ inactiveAtomsList s.codes s.atoms :=
    (mem_inactiveAtomsList_iff s.codes s.atoms j).mpr ⟨hj, hz⟩
  have hne : inactiveAtomsList s.codes s.atoms ≠ [] := List.ne_nil_of_mem hmemI
  have hnotA : j ∉ activeAtomsList s.codes s.atoms := by
    rw [mem_activeAtomsList_iff]
    rintro ⟨-, n, hn, hnz⟩
    exact hnz (hz n hn)
  constructor
  · show (OptimizeDictionary sqrt solve draws dualVars s adjacencies).rows = _
    unfold OptimizeDictionary
    rw [if_neg hne]
  · intro i
    show (OptimizeDictionary sqrt solve draws dualVars s adjacencies).entries i j = _
    unfold OptimizeDictionary
    rw [if_neg hne]
    show (if j ∈ activeAtomsList s.codes s.atoms then _
      else if j ∈ inactiveAtomsList s.codes s.atoms then _ else _) = _
    rw [if_neg hnotA, if_pos hmemI]

/-- A normalized nonzero draw sum has unit Euclidean norm over the data
rows, for any square-root kernel obeying the library contract. -/
theorem inactiveCol_unit_norm {α : Type} [LinearOrderedField α]
    (sqrt : α → α)
    (hsq : ∀ x : α, 0 ≤ x → sqrt x * sqrt x = x)
    (hnn : ∀ x : α, 0 ≤ x → 0 ≤ sqrt x)
    (data : Mat α) (d0 d1 d2 : Nat)
    (hne : ∃ i, i < data.rows ∧ drawSum data d0 d1 d2 i ≠ 0) :
    sqrt (∑ i ∈ Finset.range data.rows, inactiveCol sqrt data d0 d1 d2 i ^ 2) = 1 := by
  set S := ∑ k ∈ Finset.range data.rows, drawSum data d0 d1 d2 k ^ 2 with hSdef
  have hS0 : 0 ≤ S := Finset.sum_nonneg fun _ _ => sq_nonneg _
  obtain ⟨i0, hi0, hnz⟩ := hne
  have hSpos : 0 < S := by
    have hle : drawSum data d0 d1 d2 i0 ^ 2 ≤ S :=
      Finset.single_le_sum (fun k _ => sq_nonneg (drawSum data d0 d1 d2 k))
        (Finset.mem_range.mpr hi0)
    have hpos : 0 < drawSum data d0 d1 d2 i0 ^ 2 :=
      lt_of_le_of_ne (sq_nonneg _) (Ne.symm (pow_ne_zero 2 hnz))
    linarith
  have hc : sqrt S * sqrt S = S := hsq S hS0
  have hcne : sqrt S ≠ 0 := by
    intro h
    rw [h, mul_zero] at hc
    exact absurd hc.symm (ne_of_gt hSpos)
  have hsum : ∑ i ∈ Finset.range data.rows, inactiveCol sqrt data d0 d1 d2 i ^ 2 = 1 := by
    unfold inactiveCol
    calc ∑ i ∈ Finset.range data.rows, (drawSum data d0 d1 d2 i / sqrt S) ^ 2
        = ∑ i ∈ Finset.range data.rows, drawSum data d0 d1 d2 i ^ 2 / sqrt S ^ 2 := by
          refine Finset.sum_congr rfl fun i _ => ?_
          rw [div_pow]
      _ = S / sqrt S ^ 2 := by rw [← Finset.sum_div]
      _ = 1 := by
          rw [sq, hc]
          exact div_self (ne_of_gt hSpos)
  rw [hsum]
  exact sqrt_spec_one sqrt hsq hnn

/-- C8 counterexample: on all-zero 1x1 data with an all-zero code row, the
single atom is inactive and the three drawn data columns sum to the zero
vector, so the replacement column is 0 / 0 and its Euclidean norm is 0,
not 1: the unconditional unit-norm part of the claim fails. -/
theorem OptimizeDictionary_zero_draw_not_unit :
    Mat.colNorm Real.sqrt
      (OptimizeDictionary Real.sqrt solveZero drawsZero dualZero zeroStateR []) 0 = 0 ∧
    (0 : ℝ) ≠ 1 := by
  have h := OptimizeDictionary_inactive_entries Real.sqrt solveZero drawsZero dualZero
    zeroStateR [] 0 (by norm_num [zeroStateR]) (fun n _ => rfl)
  constructor
  · show Real.sqrt (Mat.colSumSq _ 0) = 0
    have hsum : Mat.colSumSq
        (OptimizeDictionary Real.sqrt solveZero drawsZero dualZero zeroStateR []) 0 = 0 := by
      unfold Mat.colSumSq
      rw [h.1]
      show ∑ i ∈ Finset.range zeroStateR.data.rows, _ = (0:ℝ)
      refine Finset.sum_eq_zero fun i _ => ?_
      rw [h.2 i]
      simp [inactiveCol, drawSum, zeroStateR, zeroMat1R]
    rw [hsum, Real.sqrt_zero]
  · norm_num

/-- C8 (amended): after OptimizeDictionary, every atom whose code row is
entirely zero has been replaced by the sum of the three data columns drawn
for it divided by the Euclidean norm of that sum — a column of exactly unit
norm whenever the drawn sum is nonzero (a zero drawn sum instead yields a
degenerate column) — while the column of every active atom is the corresponding
column of the transposed solution of
(Z_active Z_active^t + diag(dualVars)) M = Z_active X^t: the column at the
position of the atom in the active list when some atom is inactive, and
the whole transposed solution when none is. -/
theorem OptimizeDictionary_assembly {α : Type} [LinearOrderedField α] [DecidableEq α]
    (sqrt : α → α)
    (hsq : ∀ x : α, 0 ≤ x → sqrt x * sqrt x = x)
    (hnn : ∀ x : α, 0 ≤ x → 0 ≤ sqrt x)
    (solve : Mat α → Mat α → Mat α) (draws : Nat → Fin 3 → Nat)
    (dualVars : Nat → α) (s : SparseCoding α) (adjacencies : List Nat) :
    (∀ j : Nat, j < s.atoms → (∀ n, n < s.codes.cols → s.codes.entries j n = 0) →
      (∀ i : Nat,
        (OptimizeDictionary sqrt solve draws dualVars s adjacencies).entries i j =
          inactiveCol sqrt s.data
            (draws ((inactiveAtomsList s.codes s.atoms).indexOf j) 0)
            (draws ((inactiveAtomsList s.codes s.atoms).indexOf j) 1)
            (draws ((inactiveAtomsList s.codes s.atoms).indexOf j) 2) i) ∧
      ((∃ i, i < s.data.rows ∧
          drawSum s.data
            (draws ((inactiveAtomsList s.codes s.atoms).indexOf j) 0)
            (draws ((inactiveAtomsList s.codes s.atoms).indexOf j) 1)
            (draws ((inactiveAtomsList s.codes s.atoms).indexOf j) 2) i ≠ 0) →
        Mat.colNorm sqrt
          (OptimizeDictionary sqrt solve draws dualVars s adjacencies) j = 1)) ∧
    (∀ j : Nat, j < s.atoms → (∃ n, n < s.codes.cols ∧ s.codes.entries j n ≠ 0) →
      inactiveAtomsList s.codes s.atoms ≠ [] →
      ∀ i : Nat,
        (OptimizeDictionary sqrt solve draws dualVars s adjacencies).entries i j =
          (dictionaryActiveEstimateOf solve dualVars s).entries i
            ((activeAtomsList s.codes s.atoms).indexOf j)) ∧
    (inactiveAtomsList s.codes s.atoms = [] →
      OptimizeDictionary sqrt solve draws dualVars s adjacencies =
        dictionaryActiveEstimateOf solve dualVars s) := by
  refine ⟨fun j hj hz => ?_, fun j hj hnz hne i => ?_, fun hempty => ?_⟩
  · have h := OptimizeDictionary_inactive_entries sqrt solve draws dualVars s
      adjacencies j hj hz
    refine ⟨h.2, fun hex => ?_⟩
    have hsum : Mat.colSumSq
        (OptimizeDictionary sqrt solve draws dualVars s adjacencies) j =
        ∑ i ∈ Finset.range s.data.rows, inactiveCol sqrt s.data
          (draws ((inactiveAtomsList s.codes s.atoms).indexOf j) 0)
          (draws ((inactiveAtomsList s.codes s.atoms).indexOf j) 1)
          (draws ((inactiveAtomsList s.codes s.atoms).indexOf j) 2) i ^ 2 := by
      unfold Mat.colSumSq
      rw [h.1]
      exact Finset.sum_congr rfl fun i _ => by rw [h.2 i]
    show sqrt (Mat.colSumSq
      (OptimizeDictionary sqrt solve draws dualVars s adjacencies) j) = 1
    rw [hsum]
    exact inactiveCol_unit_norm sqrt hsq hnn s.data _ _ _ hex
  · have hmemA : j ∈ activeAtomsList s.codes s.atoms :=
      (mem_activeAtomsList_iff s.codes s.atoms j).mpr ⟨hj, hnz⟩
    show (OptimizeDictionary sqrt solve draws dualVars s adjacencies).entries i j = _
    unfold OptimizeDictionary
    rw [if_neg hne]
    show (if j ∈ activeAtomsList s.codes s.atoms then _ else _) = _
    rw [if_pos hmemA]
  · unfold OptimizeDictionary
    rw [if_pos hempty]

/-- Witness for OptimizeDictionary_assembly: with nonzero 1x1 data and an
all-zero code row, the rebuilt inactive atom has exactly unit norm. -/
theorem OptimizeDictionary_assembly_witness :
    Mat.colNorm Real.sqrt
      (OptimizeDictionary Real.sqrt solveZero drawsZero dualZero posStateR []) 0 = 1 := by
  have h := (OptimizeDictionary_assembly Real.sqrt
    (fun _ hx => Real.mul_self_sqrt hx) (fun x _ => Real.sqrt_nonneg x)
    solveZero drawsZero dualZero posStateR []).1 0 (by norm_num [posStateR])
    (fun _ _ => rfl)
  exact h.2 ⟨0, by norm_num [posStateR, twoMat1R],
    by norm_num [drawSum, posStateR, twoMat1R]⟩

/-- The loop returns its state unchanged when the stored counter equals
the stored iteration bound. -/
theorem encodeLoop_stop {α : Type} [LinearOrderedField α] {σ : Type}
    (O : EncodeOracle α σ) (maxIterations fuel t : Nat) (lastObjVal : α)
    (state : σ) (adjacencies : List Nat)
    (hguard : t % W64 = maxIterations % W64) :
    encodeLoop O maxIterations (fuel + 1) t lastObjVal state adjacencies =
      (state, 0) := by
  unfold encodeLoop
  rw [if_pos hguard]

/-- One executed pass of the loop, phrased along the Encode trajectory:
with counter u + 1 not yet at the bound, the pass moves the state to
encTraj (u + 1) and exits when the improvement encImp (u + 1) is below
tolerance, else recurses with the counter and baseline advanced. -/
theorem encodeLoop_round {α : Type} [LinearOrderedField α] {σ : Type}
    (O : EncodeOracle α σ) (s : σ) (maxIterations fuel u : Nat)
    (hguard : ¬ (u + 1) % W64 = maxIterations % W64) :
    encodeLoop O maxIterations (fuel + 1) (u + 1) (encObj O s u)
        (encTraj O s u).1 (encTraj O s u).2 =
      if encImp O s (u + 1) < objTol then ((encTraj O s (u + 1)).1, 1)
      else
        ((encodeLoop O maxIterations fuel (u + 2) (encObj O s (u + 1))
            (encTraj O s (u + 1)).1 (encTraj O s (u + 1)).2).1,
          (encodeLoop O maxIterations fuel (u + 2) (encObj O s (u + 1))
            (encTraj O s (u + 1)).1 (encTraj O s (u + 1)).2).2 + 1) := by
  by_cases himp : encImp O s (u + 1) < objTol
  · rw [if_pos himp]
    show (if (u + 1) % W64 = maxIterations % W64 then _ else _) = _
    rw [if_neg hguard]
    show (if encImp O s (u + 1) < objTol then ((encTraj O s (u + 1)).1, 1)
      else _) = _
    rw [if_pos himp]
  · rw [if_neg himp]
    show (if (u + 1) % W64 = maxIterations % W64 then _ else _) = _
    rw [if_neg hguard]
    show (if encImp O s (u + 1) < objTol then _
      else
        ((encodeLoop O maxIterations fuel (u + 2) (encObj O s (u + 1))
            (encTraj O s (u + 1)).1 (encTraj O s (u + 1)).2).1,
          (encodeLoop O maxIterations fuel (u + 2) (encObj O s (u + 1))
            (encTraj O s (u + 1)).1 (encTraj O s (u + 1)).2).2 + 1)) = _
    rw [if_neg himp]

/-- Exact characterization of the loop along the Encode trajectory for a
positive iteration bound below the counter modulus, given enough fuel:
from counter u + 1, baseline encObj u and state encTraj u, the loop runs
r more passes, lands in state encTraj (u + r) with r at most the
remaining budget, every pass before the last sees improvement at or above
tolerance, and the loop stops short of the budget only by a tolerance
exit at its final pass. -/
theorem encodeLoop_run {α : Type} [LinearOrderedField α] {σ : Type}
    (O : EncodeOracle α σ) (s : σ) (maxIterations : Nat)
    (hW : maxIterations < W64) :
    ∀ fuel u : Nat, u + 1 ≤ maxIterations → maxIterations - (u + 1) ≤ fuel →
    ∃ r : Nat,
      encodeLoop O maxIterations fuel (u + 1) (encObj O s u)
          (encTraj O s u).1 (encTraj O s u).2 = ((encTraj O s (u + r)).1, r) ∧
      r ≤ maxIterations - (u + 1) ∧
      (∀ n, u + 1 ≤ n → n + 1 ≤ u + r → ¬ encImp O s n < objTol) ∧
      (r < maxIterations - (u + 1) → 1 ≤ r ∧ encImp O s (u + r) < objTol) := by
  intro fuel
  induction fuel with
  | zero =>
    intro u hle hfuel
    refine ⟨0, ?_, by omega, fun n h1 h2 => absurd h2 (by omega),
      fun h => absurd h (by omega)⟩
    show (((encTraj O s u).1, 0) : σ × Nat) = ((encTraj O s (u + 0)).1, 0)
    rfl
  | succ fuel' ih =>
    intro u hle hfuel
    by_cases hend : u + 1 = maxIterations
    · refine ⟨0, ?_, by omega, fun n h1 h2 => absurd h2 (by omega),
        fun h => absurd h (by omega)⟩
      rw [encodeLoop_stop O maxIterations fuel' (u + 1) (encObj O s u)
        (encTraj O s u).1 (encTraj O s u).2 (by rw [hend])]
      rfl
    · have hlt : u + 1 < maxIterations := lt_of_le_of_ne hle hend
      have hguard : ¬ (u + 1) % W64 = maxIterations % W64 := by
        rw [Nat.mod_eq_of_lt (by omega), Nat.mod_eq_of_lt hW]
        exact hend
      by_cases himp : encImp O s (u + 1) < objTol
      · refine ⟨1, ?_, by omega, fun n h1 h2 => absurd h2 (by omega),
          fun _ => ⟨le_refl 1, himp⟩⟩
        rw [encodeLoop_round O s maxIterations fuel' u hguard, if_pos himp]
      · obtain ⟨r', heq, hr1, hr2, hr3⟩ := ih (u + 1) (by omega) (by omega)
        refine ⟨r' + 1, ?_, by omega, ?_, ?_⟩
        · rw [encodeLoop_round O s maxIterations fuel' u hguard, if_neg himp,
            heq, show u + 1 + r' = u + (r' + 1) by omega]
        · intro n hn1 hn2
          by_cases hn : n = u + 1
          · rw [hn]
            exact himp
          · exact hr2 n (by omega) (by omega)
        · intro hlt2
          have h3 := hr3 (by omega)
          refine ⟨by omega, ?_⟩
          rw [show u + (r' + 1) = u + 1 + r' by omega]
          exact h3.2

/-- Encode restated through encodeLoop_run at counter 1: the run executes
r passes landing in encTraj r. -/
theorem Encode_run {α : Type} [LinearOrderedField α] {σ : Type}
    (O : EncodeOracle α σ) (s : σ) (maxIterations fuel : Nat)
    (hpos : 1 ≤ maxIterations) (hW : maxIterations < W64)
    (hfuel : maxIterations - 1 ≤ fuel) :
    ∃ r : Nat,
      Encode O maxIterations fuel s = ((encTraj O s r).1, r) ∧
      r ≤ maxIterations - 1 ∧
      (∀ n, 1 ≤ n → n + 1 ≤ r → ¬ encImp O s n < objTol) ∧
      (r < maxIterations - 1 → 1 ≤ r ∧ encImp O s r < objTol) := by
  obtain ⟨r, heq, hr1, hr2, hr3⟩ :=
    encodeLoop_run O s maxIterations hW fuel 0 (by omega) (by omega)
  refine ⟨r, ?_, by omega, fun n h1 h2 => hr2 n (by omega) (by omega), fun h => ?_⟩
  · show encodeLoop O maxIterations fuel (0 + 1) (encObj O s 0)
      (encTraj O s 0).1 (encTraj O s 0).2 = _
    rw [heq, Nat.zero_add]
  · obtain ⟨h1, h2⟩ := hr3 (by omega)
    rw [Nat.zero_add] at h2
    exact ⟨h1, h2⟩

/-- C3: for a positive iteration bound (a size_t value, hence below 2^64)
and enough fuel, Encode runs the initial coding step and then r passes of
the trajectory (dictionary step, coding step, adjacency recomputation)
with r at most maxIterations - 1; every pass before the last saw
improvement at or above the 1e-2 tolerance, a stop short of the budget
happens exactly by a tolerance exit at the final pass, and when no pass
within the budget sees sub-tolerance improvement, all maxIterations - 1
passes run. -/
theorem Encode_iteration_structure {α : Type} [LinearOrderedField α] {σ : Type}
    (O : EncodeOracle α σ) (s : σ) (maxIterations fuel : Nat)
    (hpos : 1 ≤ maxIterations) (hW : maxIterations < W64)
    (hfuel : maxIterations - 1 ≤ fuel) :
    Encode O maxIterations fuel s =
      ((encTraj O s (Encode O maxIterations fuel s).2).1,
        (Encode O maxIterations fuel s).2) ∧
    (Encode O maxIterations fuel s).2 ≤ maxIterations - 1 ∧
    (∀ n, 1 ≤ n → n + 1 ≤ (Encode O maxIterations fuel s).2 →
      ¬ encImp O s n < objTol) ∧
    ((Encode O maxIterations fuel s).2 < maxIterations - 1 →
      1 ≤ (Encode O maxIterations fuel s).2 ∧
      encImp O s (Encode O maxIterations fuel s).2 < objTol) ∧
    ((∀ n, 1 ≤ n → n ≤ maxIterations - 1 → ¬ encImp O s n < objTol) →
      (Encode O maxIterations fuel s).2 = maxIterations - 1) := by
  obtain ⟨r, hEnc, hr1, hr2, hr3⟩ :=
    Encode_run O s maxIterations fuel hpos hW hfuel
  have hsnd : (Encode O maxIterations fuel s).2 = r := by rw [hEnc]
  rw [hsnd, hEnc]
  refine ⟨rfl, hr1, hr2, hr3, fun hall => ?_⟩
  by_contra hne
  have hlt : r < maxIterations - 1 := lt_of_le_of_ne hr1 hne
  obtain ⟨h1, h2⟩ := hr3 hlt
  exact hall r h1 (by omega) h2

/-- Witness for Encode_iteration_structure: the constant demo oracle with
budget 5 runs at most 4 passes. -/
theorem Encode_iteration_structure_witness :
    (Encode oracleConst 5 5 (0:ℚ)).2 ≤ 5 - 1 :=
  (Encode_iteration_structure oracleConst (0:ℚ) 5 5 (by norm_num)
    (by norm_num [W64]) (by norm_num)).2.1

/-- C4: if Encode reaches pass n and the objective computed there exceeds
the previous baseline (negative improvement), the loop stops at the end
of that pass — the negative improvement is below the positive tolerance
1e-2 — and the final state is the pass-n state: the loop never continues
with the increased objective as baseline. -/
theorem Encode_negative_improvement_terminates {α : Type} [LinearOrderedField α]
    {σ : Type}
    (O : EncodeOracle α σ) (s : σ) (maxIterations fuel n : Nat)
    (hpos : 1 ≤ maxIterations) (hW : maxIterations < W64)
    (hfuel : maxIterations - 1 ≤ fuel) (hn : 1 ≤ n)
    (hreach : n ≤ (Encode O maxIterations fuel s).2)
    (hinc : encObj O s (n - 1) < encObj O s n) :
    (Encode O maxIterations fuel s).2 = n ∧
    Encode O maxIterations fuel s = ((encTraj O s n).1, n) := by
  obtain ⟨r, hEnc, hr1, hr2, hr3⟩ :=
    Encode_run O s maxIterations fuel hpos hW hfuel
  have hsnd : (Encode O maxIterations fuel s).2 = r := by rw [hEnc]
  rw [hsnd] at hreach
  have himpn : encImp O s n < objTol := by
    have hneg : encImp O s n < 0 := sub_neg.mpr hinc
    have htol : (0:α) < objTol := by norm_num [objTol]
    exact lt_trans hneg htol
  have hrn : r = n := by
    rcases lt_or_ge n r with h | h
    · exact absurd himpn (hr2 n hn (by omega))
    · omega
  rw [hsnd, hrn]
  rw [hrn] at hEnc
  exact ⟨rfl, hEnc⟩

/-- With a zero iteration bound and improvements never below tolerance,
the loop from counter u + 1 runs min fuel (2^64 - (u + 1)) passes: the
guard first stops it when the stored size_t counter wraps to 0 at the
2^64-th check. -/
theorem encodeLoop_zero_maxIterations {α : Type} [LinearOrderedField α] {σ : Type}
    (O : EncodeOracle α σ) (s : σ)
    (himp : ∀ n, 1 ≤ n → ¬ encImp O s n < objTol) :
    ∀ fuel u : Nat, u + 1 ≤ W64 →
      (encodeLoop O 0 fuel (u + 1) (encObj O s u)
        (encTraj O s u).1 (encTraj O s u).2).2 = min fuel (W64 - (u + 1)) := by
  intro fuel
  induction fuel with
  | zero =>
    intro u hle
    show (0 : Nat) = min 0 (W64 - (u + 1))
    omega
  | succ fuel' ih =>
    intro u hle
    by_cases hend : u + 1 = W64
    · have hguard : (u + 1) % W64 = 0 % W64 := by
        rw [hend, Nat.mod_self, Nat.zero_mod]
      rw [encodeLoop_stop O 0 fuel' (u + 1) (encObj O s u)
        (encTraj O s u).1 (encTraj O s u).2 hguard]
      show (0 : Nat) = min (fuel' + 1) (W64 - (u + 1))
      omega
    · have hguard : ¬ (u + 1) % W64 = 0 % W64 := by
        rw [Nat.zero_mod, Nat.mod_eq_of_lt (by omega)]
        omega
      rw [encodeLoop_round O s 0 fuel' u hguard,
        if_neg (himp (u + 1) (by omega))]
      show (encodeLoop O 0 fuel' (u + 2) (encObj O s (u + 1))
          (encTraj O s (u + 1)).1 (encTraj O s (u + 1)).2).2 + 1 = _
      rw [ih (u + 1) (by omega)]
      omega

/-- C10 (amended): with maxIterations = 0 and improvements never below
tolerance, the guard t != maxIterations never stops the loop before the
size_t counter wraps: any fuel up to 2^64 - 1 is consumed in full, so the
pass count is bounded by no value below 2^64 - 1 — in particular it is
not bounded by maxIterations — and any larger fuel yields exactly
2^64 - 1 passes, the guard stopping the loop at the wrap of the counter
to 0. -/
theorem Encode_zero_maxIterations_unbounded {α : Type} [LinearOrderedField α]
    {σ : Type} (O : EncodeOracle α σ) (s : σ)
    (himp : ∀ n, 1 ≤ n → ¬ encImp O s n < objTol) (fuel : Nat) :
    (fuel ≤ W64 - 1 → (Encode O 0 fuel s).2 = fuel) ∧
    (W64 - 1 ≤ fuel → (Encode O 0 fuel s).2 = W64 - 1) := by
  have h : (Encode O 0 fuel s).2 = min fuel (W64 - 1) := by
    show (encodeLoop O 0 fuel (0 + 1) (encObj O s 0)
      (encTraj O s 0).1 (encTraj O s 0).2).2 = _
    rw [encodeLoop_zero_maxIterations O s himp fuel 0 (by norm_num [W64])]
  constructor <;> intro hf <;> omega

/-- State of the decreasing demo oracle after the initial coding step and
after each pass: minus one further per pass. -/
theorem oracleDec_traj (n : Nat) :
    (encTraj oracleDec (0:ℚ) n).1 = -(1 + (n:ℚ)) := by
  induction n with
  | zero =>
    show (0:ℚ) - 1 = -(1 + ((0:Nat):ℚ))
    norm_num
  | succ n ih =>
    show (encTraj oracleDec (0:ℚ) n).1 - 1 = -(1 + ((n + 1 : Nat):ℚ))
    rw [ih]
    push_cast
    ring

/-- Objective baselines of the decreasing demo oracle. -/
theorem oracleDec_obj (n : Nat) (hn : 1 ≤ n) :
    encObj oracleDec (0:ℚ) n = -(1 + (n:ℚ)) := by
  match n, hn with
  | n + 1, _ => exact oracleDec_traj (n + 1)

/-- The decreasing demo oracle never sees a sub-tolerance improvement:
the first pass improves from DBL_MAX and each later pass improves by
exactly 1. -/
theorem oracleDec_never_tol :
    ∀ n, 1 ≤ n → ¬ encImp oracleDec (0:ℚ) n < objTol := by
  intro n hn
  match n, hn with
  | 1, _ =>
    show ¬ encObj oracleDec (0:ℚ) 0 - encObj oracleDec (0:ℚ) 1 < objTol
    have h0 : encObj oracleDec (0:ℚ) 0 = ((2 ^ 1024 - 2 ^ 971 : Nat) : ℚ) := rfl
    have hc : (0:ℚ) ≤ ((2 ^ 1024 - 2 ^ 971 : Nat) : ℚ) := Nat.cast_nonneg _
    rw [not_lt, h0, oracleDec_obj 1 (by norm_num)]
    have : ((1:Nat):ℚ) = 1 := by norm_num
    rw [this]
    unfold objTol
    linarith
  | n + 2, _ =>
    show ¬ encObj oracleDec (0:ℚ) (n + 1) - encObj oracleDec (0:ℚ) (n + 2) < objTol
    rw [not_lt, oracleDec_obj (n + 1) (by omega), oracleDec_obj (n + 2) (by omega)]
    unfold objTol
    push_cast
    ring_nf
    norm_num

/-- C10 counterexample: with maxIterations = 0 and the decreasing demo
oracle — whose improvement is at or above tolerance at every pass, so the
tolerance test never exits — the loop still stops, after exactly
2^64 - 1 passes, whatever surplus fuel is available: the guard
t != maxIterations stops it when the size_t counter, started at 1, wraps
to 0 = maxIterations at the 2^64-th check.  Hence the guard does stop the
loop by iteration count, and the tolerance test is not the only exit. -/
theorem Encode_zero_guard_wrap :
    (Encode oracleDec 0 W64 (0:ℚ)).2 = W64 - 1 ∧
    (Encode oracleDec 0 (W64 + 5) (0:ℚ)).2 = W64 - 1 := by
  constructor
  · show (encodeLoop oracleDec 0 W64 (0 + 1) (encObj oracleDec (0:ℚ) 0)
      (encTraj oracleDec (0:ℚ) 0).1 (encTraj oracleDec (0:ℚ) 0).2).2 = W64 - 1
    rw [encodeLoop_zero_maxIterations oracleDec (0:ℚ) oracleDec_never_tol W64 0
      (by norm_num [W64])]
    omega
  · show (encodeLoop oracleDec 0 (W64 + 5) (0 + 1) (encObj oracleDec (0:ℚ) 0)
      (encTraj oracleDec (0:ℚ) 0).1 (encTraj oracleDec (0:ℚ) 0).2).2 = W64 - 1
    rw [encodeLoop_zero_maxIterations oracleDec (0:ℚ) oracleDec_never_tol (W64 + 5) 0
      (by norm_num [W64])]
    omega

/-- Witness for Encode_zero_maxIterations_unbounded: with maxIterations =
0 the decreasing demo oracle consumes a fuel of 5 in full — five passes,
already exceeding the iteration bound. -/
theorem Encode_zero_maxIterations_unbounded_witness :
    (Encode oracleDec 0 5 (0:ℚ)).2 = 5 :=
  (Encode_zero_maxIterations_unbounded oracleDec (0:ℚ) oracleDec_never_tol 5).1
    (by norm_num [W64])

/-- State of the increasing demo oracle after the initial coding step and
after each pass: plus one per pass. -/
theorem oracleInc_traj (n : Nat) :
    (encTraj oracleInc (0:ℚ) n).1 = 1 + (n:ℚ) := by
  induction n with
  | zero =>
    show (0:ℚ) + 1 = 1 + ((0:Nat):ℚ)
    norm_num
  | succ n ih =>
    show (encTraj oracleInc (0:ℚ) n).1 + 1 = 1 + ((n + 1 : Nat):ℚ)
    rw [ih]
    push_cast
    ring

/-- Objective baselines of the increasing demo oracle. -/
theorem oracleInc_obj (n : Nat) (hn : 1 ≤ n) :
    encObj oracleInc (0:ℚ) n = 1 + (n:ℚ) := by
  match n, hn with
  | n + 1, _ => exact oracleInc_traj (n + 1)

/-- The increasing demo oracle with budget 5 runs exactly two passes: the
first improves from DBL_MAX, the second sees the objective rise from 2 to
3 and exits by the tolerance test. -/
theorem oracleInc_rounds : (Encode oracleInc 5 5 (0:ℚ)).2 = 2 := by
  obtain ⟨r, hEnc, hr1, hr2, hr3⟩ := Encode_run oracleInc (0:ℚ) 5 5 (by norm_num)
    (by norm_num [W64]) (by norm_num)
  have hsnd : (Encode oracleInc 5 5 (0:ℚ)).2 = r := by rw [hEnc]
  have himp1 : ¬ encImp oracleInc (0:ℚ) 1 < objTol := by
    show ¬ encObj oracleInc (0:ℚ) 0 - encObj oracleInc (0:ℚ) 1 < objTol
    have h0 : encObj oracleInc (0:ℚ) 0 = ((2 ^ 1024 - 2 ^ 971 : Nat) : ℚ) := rfl
    have hc : (0:ℚ) ≤ ((2 ^ 1024 - 2 ^ 971 : Nat) : ℚ) := Nat.cast_nonneg _
    rw [not_lt, h0, oracleInc_obj 1 (by norm_num)]
    have h1 : ((1:Nat):ℚ) = 1 := by norm_num
    rw [h1]
    unfold objTol
    linarith
  have himp2 : encImp oracleInc (0:ℚ) 2 < objTol := by
    show encObj oracleInc (0:ℚ) 1 - encObj oracleInc (0:ℚ) 2 < objTol
    rw [oracleInc_obj 1 (by norm_num), oracleInc_obj 2 (by norm_num)]
    unfold objTol
    norm_num
  have hr : r = 2 := by
    rcases Nat.lt_or_ge r 2 with h | h
    · exfalso
      have h3 := hr3 (by omega)
      have hone : r = 1 := by omega
      rw [hone] at h3
      exact himp1 h3.2
    · rcases Nat.lt_or_ge 2 r with h2 | h2
      · exact absurd himp2 (hr2 2 (by norm_num) (by omega))
      · omega
  rw [hsnd, hr]

/-- Witness for Encode_negative_improvement_terminates: the increasing
demo oracle reaches pass 2 with an objective increase there (2 to 3), and
the run stops at exactly 2 passes. -/
theorem Encode_negative_improvement_terminates_witness :
    (Encode oracleInc 5 5 (0:ℚ)).2 = 2 :=
  (Encode_negative_improvement_terminates oracleInc (0:ℚ) 5 5 2 (by norm_num)
    (by norm_num [W64]) (by norm_num) (by norm_num)
    (le_of_eq oracleInc_rounds.symm)
    (by
      show encObj oracleInc (0:ℚ) 1 < encObj oracleInc (0:ℚ) 2
      rw [oracleInc_obj 1 (by norm_num), oracleInc_obj 2 (by norm_num)]
      norm_num)).1

end Mlpack
